import Mathlib

/-!
Shallow embedding of the core of `src/src/App.tsx` (a BST visualizer):
the tree model (`insertIntoBST`), the layout engine (`calculatePositions`),
the centering calculator (`getHorizontalOffset`) and the edge extractor
(`renderLines`), together with theorems checking the specification's claims
about them.

JavaScript numbers are modelled by `Int` for keys and `ℚ` for canvas
coordinates (all coordinate arithmetic in the source is exact dyadic
arithmetic, so `ℚ` is faithful).  The JS `Map` (insertion-ordered, `set`
replaces the value of an existing key in place and appends otherwise) is
modelled by an association list with exactly that `set` behavior.
-/

namespace BSTVisualizer

/-- `interface TreeNode { id: number; left: TreeNode | null; right: TreeNode | null }`.
`nil` models the `null` reference. -/
inductive Tree where
  | nil : Tree
  | node (id : Int) (left : Tree) (right : Tree) : Tree
deriving DecidableEq, Repr

/-- `interface NodePosition { x: number; y: number; level: number }`. -/
structure NodePosition where
  x : ℚ
  y : ℚ
  level : Nat
deriving DecidableEq, Repr

/-- One SVG line segment emitted by `renderLines`, reduced to its geometric
attributes `x1,y1,x2,y2` (stroke/animation props are presentation only). -/
structure Segment where
  x1 : ℚ
  y1 : ℚ
  x2 : ℚ
  y2 : ℚ
deriving DecidableEq, Repr

/-- `function insertIntoBST(root, value)`: empty root becomes a leaf;
`value < root.id` rebuilds the node with the insertion in the left child,
otherwise (ties included) in the right child. -/
def insertIntoBST : Tree → Int → Tree
  | .nil, value => .node value .nil .nil
  | .node k l r, value =>
      if value < k then .node k (insertIntoBST l value) r
      else .node k l (insertIntoBST r value)

/-- In-order traversal of the keys of a tree. -/
def inorder : Tree → List Int
  | .nil => []
  | .node k l r => inorder l ++ k :: inorder r

/-- The BST invariant, checked structurally: at every node all keys of the
left subtree are strictly below the node's key and all keys of the right
subtree are greater than or equal to it. -/
def isBST : Tree → Bool
  | .nil => true
  | .node k l r =>
      (inorder l).all (fun a => a < k) && (inorder r).all (fun a => k ≤ a)
        && isBST l && isBST r

/-- Number of nodes of a tree. -/
def size : Tree → Nat
  | .nil => 0
  | .node _ l r => size l + size r + 1

/-- The subtree of `t` at a path of directions from the root
(`false` = left, `true` = right); `none` when the path walks off the tree. -/
def subtreeAt : Tree → List Bool → Option Tree
  | t, [] => some t
  | .nil, _ :: _ => none
  | .node _ l r, d :: ds => subtreeAt (if d then r else l) ds

/-- The root-to-insertion-point path that `insertIntoBST` walks for `v`:
left on `v < key`, right otherwise, ending at the empty slot that receives
the new leaf. -/
def insPath : Tree → Int → List Bool
  | .nil, _ => []
  | .node k l r, v =>
      if v < k then false :: insPath l v else true :: insPath r v

/-- `begins p q`: the path `p` is an initial segment of the path `q`. -/
def begins : List Bool → List Bool → Bool
  | [], _ => true
  | _ :: _, [] => false
  | a :: as, b :: bs => a == b && begins as bs

/-- JS `Map.set m k v`: if `k` is already a key of `m`, replace its value in
place (keeping insertion order); otherwise append `(k, v)` at the end. -/
def mapSet (map : List (Int × NodePosition)) (k : Int) (v : NodePosition) :
    List (Int × NodePosition) :=
  if map.any (fun e => e.1 == k) then
    map.map (fun e => if e.1 == k then (k, v) else e)
  else map ++ [(k, v)]

/-- JS `Map.get m k`: the value bound to `k`, if any. -/
def mapGet (map : List (Int × NodePosition)) (k : Int) : Option NodePosition :=
  (map.find? (fun e => e.1 == k)).map (fun e => e.2)

/-- `function calculatePositions(node, level = 0, position = 0, map = new Map())`:
pre-order walk storing for each node `x = (520 / 2^level) * (position + 0.5)`
and `y = 20 + level * 80`, recursing left with slot `position * 2` and right
with slot `position * 2 + 1` at `level + 1`.  (`0.5` is `1/2` in `ℚ`; the
unused `_depth`/`_maxLeaves` parameters of the source are dropped.  The
source guards each recursive call by `if (node.left)` / `if (node.right)`,
modelled by the two `if _ ≠ .nil` tests; calling the function on an empty
child would return `map` unchanged anyway, see `calcPos_node`.) -/
def calculatePositions : Tree → Nat → Nat → List (Int × NodePosition) →
    List (Int × NodePosition)
  | .nil, _, _, map => map
  | .node k l r, level, position, map =>
      let containerWidth : ℚ := 520
      let verticalSpacing : ℚ := 80
      let slots : ℚ := 2 ^ level
      let horizontalSpacing : ℚ := containerWidth / slots
      let x : ℚ := horizontalSpacing * ((position : ℚ) + 1/2)
      let y : ℚ := 20 + (level : ℚ) * verticalSpacing
      let map1 := mapSet map k ⟨x, y, level⟩
      let map2 :=
        if l ≠ .nil then calculatePositions l (level + 1) (position * 2) map1
        else map1
      if r ≠ .nil then calculatePositions r (level + 1) (position * 2 + 1) map2
      else map2

/-- The layout engine's entry point: `calculatePositions(tree)` with the
source's default arguments. -/
def computeLayout (t : Tree) : List (Int × NodePosition) :=
  calculatePositions t 0 0 []

/-- The width `520 / 2^level` of one slot at a level (the source's
`horizontalSpacing`). -/
def slotWidth (level : Nat) : ℚ := 520 / 2 ^ level

/-- `function getHorizontalOffset(positions, canvasWidth)`: `0` for an empty
map, otherwise `canvasWidth/2 - (minX + (maxX - minX)/2)` where `minX`/`maxX`
range over the stored `x` values.  The source scans with accumulators
initialised to `±Infinity`; since the empty case returns early, this is the
fold of `min`/`max` from the first element. -/
def getHorizontalOffset (positions : List (Int × NodePosition))
    (canvasWidth : ℚ) : ℚ :=
  match positions.map (fun e => e.2.x) with
  | [] => 0
  | x0 :: xs =>
      let minX := xs.foldl min x0
      let maxX := xs.foldl max x0
      let treeWidth := maxX - minX
      canvasWidth / 2 - (minX + treeWidth / 2)

/-- The lines contributed through one child pointer of a node: the source's
`if (node.left && nodePos) { const leftPos = positions.get(node.left.id);
if (leftPos) { lines.push(<segment>); lines.push(...renderLines(node.left,
positions, xOffset)); } }` block (and its mirror for `right`).  `nodePos` is
the parent's looked-up position, `child` the child pointer, `rec` the lines
of the child's subtree; when the child is `null` or either position is
missing, nothing is contributed — the child's whole subtree is skipped. -/
def childLines (positions : List (Int × NodePosition)) (xOffset : ℚ)
    (nodePos : Option NodePosition) (child : Tree) (rec : List Segment) :
    List Segment :=
  let nodeRadius : ℚ := 20
  match child, nodePos with
  | .node ck _ _, some np =>
      match mapGet positions ck with
      | some cp =>
          ⟨np.x + xOffset, np.y + nodeRadius,
           cp.x + xOffset, cp.y - nodeRadius⟩ :: rec
      | none => []
  | _, _ => []

/-- `function renderLines(node, positions, xOffset = 0)`: for each child whose
position (and the parent's) is present in the map, emit a segment from the
bottom of the parent circle (`y + 20`) to the top of the child circle
(`y - 20`), both shifted by `xOffset` in `x`, then recurse into the child;
a child whose position is missing is skipped together with its whole
subtree, as is everything below a node whose own position is missing.
(The source only recurses when the segment is pushed; here the recursive
result is computed unconditionally and `childLines` discards it in exactly
those cases, which yields the same list.) -/
def renderLines : Tree → List (Int × NodePosition) → ℚ → List Segment
  | .nil, _, _ => []
  | .node k l r, positions, xOffset =>
      childLines positions xOffset (mapGet positions k) l
          (renderLines l positions xOffset) ++
        childLines positions xOffset (mapGet positions k) r
          (renderLines r positions xOffset)

/-- The parent-child edges of a tree (parent key, child key), in the order
`renderLines` visits them. -/
def edges : Tree → List (Int × Int)
  | .nil => []
  | .node k l r =>
      (match l with
       | .nil => []
       | .node lk _ _ => (k, lk) :: edges l) ++
      (match r with
       | .nil => []
       | .node rk _ _ => (k, rk) :: edges r)

/-- The segment `renderLines` draws for an edge, given the layout and offset
(defaults are irrelevant when the layout covers both keys). -/
def segmentFor (positions : List (Int × NodePosition)) (xOffset : ℚ)
    (e : Int × Int) : Segment :=
  let pp := (mapGet positions e.1).getD ⟨0, 0, 0⟩
  let cp := (mapGet positions e.2).getD ⟨0, 0, 0⟩
  ⟨pp.x + xOffset, pp.y + 20, cp.x + xOffset, cp.y - 20⟩

/-- No two entries with distinct keys and equal levels share an `x`. -/
def CollisionFree (m : List (Int × NodePosition)) : Prop :=
  ∀ k1 p1 k2 p2, (k1, p1) ∈ m → (k2, p2) ∈ m → k1 ≠ k2 →
    p1.level = p2.level → p1.x ≠ p2.x

theorem inorder_insert_perm (t : Tree) (v : Int) :
    List.Perm (inorder (insertIntoBST t v)) (v :: inorder t) := by
  induction t with
  | nil => simp [insertIntoBST, inorder]
  | node k l r ihl ihr =>
      by_cases h : v < k
      · simp only [insertIntoBST, if_pos h, inorder]
        exact (ihl.append_right _)
      · simp only [insertIntoBST, if_neg h, inorder]
        have h1 : List.Perm (inorder l ++ k :: inorder (insertIntoBST r v))
            (inorder l ++ k :: v :: inorder r) :=
          List.Perm.append_left _ (List.Perm.cons _ ihr)
        refine h1.trans ?_
        have h2 : List.Perm ((inorder l ++ [k]) ++ v :: inorder r)
            (v :: ((inorder l ++ [k]) ++ inorder r)) := List.perm_middle
        simpa using h2

theorem mem_inorder_insert {x : Int} {t : Tree} {v : Int} :
    x ∈ inorder (insertIntoBST t v) ↔ x = v ∨ x ∈ inorder t := by
  rw [(inorder_insert_perm t v).mem_iff]
  simp

theorem isBST_insert (t : Tree) (v : Int) (h : isBST t = true) :
    isBST (insertIntoBST t v) = true := by
  induction t with
  | nil => simp [insertIntoBST, isBST, inorder]
  | node k l r ihl ihr =>
      simp only [isBST, Bool.and_eq_true, List.all_eq_true, decide_eq_true_eq] at h
      obtain ⟨⟨⟨hl, hr⟩, hbl⟩, hbr⟩ := h
      by_cases hv : v < k
      · simp only [insertIntoBST, if_pos hv, isBST, Bool.and_eq_true,
          List.all_eq_true, decide_eq_true_eq]
        refine ⟨⟨⟨?_, hr⟩, ihl hbl⟩, hbr⟩
        intro a ha
        rcases mem_inorder_insert.mp ha with h1 | h1
        · exact h1 ▸ hv
        · exact hl a h1
      · simp only [insertIntoBST, if_neg hv, isBST, Bool.and_eq_true,
          List.all_eq_true, decide_eq_true_eq]
        refine ⟨⟨⟨hl, ?_⟩, hbl⟩, ihr hbr⟩
        intro a ha
        rcases mem_inorder_insert.mp ha with h1 | h1
        · exact h1 ▸ le_of_not_lt hv
        · exact hr a h1

theorem isBST_foldl (vs : List Int) (t : Tree) (h : isBST t = true) :
    isBST (vs.foldl insertIntoBST t) = true := by
  induction vs generalizing t with
  | nil => exact h
  | cons v vs ih => exact ih _ (isBST_insert t v h)

theorem sorted_inorder_of_isBST {t : Tree} (h : isBST t = true) :
    List.Sorted (· ≤ ·) (inorder t) := by
  induction t with
  | nil => simp [inorder]
  | node k l r ihl ihr =>
      simp only [isBST, Bool.and_eq_true, List.all_eq_true, decide_eq_true_eq] at h
      obtain ⟨⟨⟨hl, hr⟩, hbl⟩, hbr⟩ := h
      simp only [inorder, List.Sorted, List.pairwise_append, List.pairwise_cons]
      refine ⟨ihl hbl, ⟨fun b hb => hr b hb, ihr hbr⟩, ?_⟩
      intro a ha b hb
      rcases List.mem_cons.mp hb with h1 | h1
      · exact h1 ▸ le_of_lt (hl a ha)
      · exact le_of_lt (lt_of_lt_of_le (hl a ha) (hr b h1))

theorem calcPos_node (k : Int) (l r : Tree) (level position : Nat)
    (map : List (Int × NodePosition)) :
    calculatePositions (.node k l r) level position map =
      calculatePositions r (level + 1) (position * 2 + 1)
        (calculatePositions l (level + 1) (position * 2)
          (mapSet map k
            ⟨520 / 2 ^ level * ((position : ℚ) + 1/2),
             20 + (level : ℚ) * 80, level⟩)) := by
  cases l <;> cases r <;> simp [calculatePositions]

theorem mem_mapSet {p : Int × NodePosition}
    {map : List (Int × NodePosition)} {k : Int} {v : NodePosition}
    (h : p ∈ mapSet map k v) : p = (k, v) ∨ p ∈ map := by
  unfold mapSet at h
  split at h
  · rcases List.mem_map.mp h with ⟨e, he, hfe⟩
    by_cases hek : (e.1 == k) = true
    · left
      rw [if_pos hek] at hfe
      exact hfe.symm
    · right
      rw [if_neg hek] at hfe
      exact hfe ▸ he
  · rcases List.mem_append.mp h with h1 | h1
    · exact Or.inr h1
    · exact Or.inl (List.mem_singleton.mp h1)

theorem keys_mapSet (map : List (Int × NodePosition)) (k : Int)
    (v : NodePosition) (k' : Int) :
    k' ∈ (mapSet map k v).map Prod.fst ↔ k' = k ∨ k' ∈ map.map Prod.fst := by
  unfold mapSet
  split
  · rename_i hany
    rcases List.any_eq_true.mp hany with ⟨e0, he0, he0k⟩
    simp only [List.mem_map, List.map_map]
    constructor
    · rintro ⟨e, he, hfe⟩
      by_cases hek : (e.1 == k) = true
      · simp only [Function.comp, if_pos hek] at hfe
        exact Or.inl hfe.symm
      · simp only [Function.comp, if_neg hek] at hfe
        exact Or.inr ⟨e, he, hfe⟩
    · rintro (rfl | ⟨e, he, hfe⟩)
      · exact ⟨e0, he0, by simp [eq_of_beq he0k]⟩
      · by_cases hek : (e.1 == k) = true
        · exact ⟨e, he, by simp only [Function.comp, if_pos hek]; exact (eq_of_beq hek) ▸ hfe⟩
        · exact ⟨e, he, by simp only [Function.comp, if_neg hek]; exact hfe⟩
  · simp only [List.map_append, List.mem_append, List.map_cons, List.map_nil,
      List.mem_singleton]
    exact or_comm

theorem keys_calculatePositions (t : Tree) :
    ∀ (level position : Nat) (map : List (Int × NodePosition)) (k : Int),
      k ∈ (calculatePositions t level position map).map Prod.fst ↔
        k ∈ inorder t ∨ k ∈ map.map Prod.fst := by
  induction t with
  | nil => simp [calculatePositions, inorder]
  | node id l r ihl ihr =>
      intro level position map k
      rw [calcPos_node, ihr, ihl, keys_mapSet]
      simp only [inorder, List.mem_append, List.mem_cons]
      tauto

theorem slotWidth_pos (level : Nat) : 0 < slotWidth level := by
  unfold slotWidth
  positivity

theorem slotWidth_succ (level : Nat) :
    slotWidth (level + 1) = slotWidth level / 2 := by
  unfold slotWidth
  rw [pow_succ, ← div_div]

theorem x_range_calculatePositions (t : Tree) :
    ∀ (level position : Nat) (map : List (Int × NodePosition)) (k : Int)
      (p : NodePosition),
      (k, p) ∈ calculatePositions t level position map →
      (k, p) ∈ map ∨
        ((position : ℚ) * slotWidth level < p.x ∧
          p.x < ((position : ℚ) + 1) * slotWidth level) := by
  induction t with
  | nil =>
      intro level position map k p h
      exact Or.inl (by simpa [calculatePositions] using h)
  | node id l r ihl ihr =>
      intro level position map k p h
      rw [calcPos_node] at h
      rcases ihr _ _ _ _ _ h with h2 | h2
      · rcases ihl _ _ _ _ _ h2 with h3 | h3
        · rcases mem_mapSet h3 with h4 | h4
          · right
            obtain ⟨-, hp⟩ := Prod.ext_iff.mp h4
            subst hp
            have e : (520 : ℚ) / 2 ^ level = slotWidth level := rfl
            simp only [e]
            constructor <;> nlinarith [slotWidth_pos level]
          · exact Or.inl h4
        · right
          rw [slotWidth_succ] at h3
          push_cast at h3
          constructor <;> linarith [slotWidth_pos level, h3.1, h3.2]
      · right
        rw [slotWidth_succ] at h2
        push_cast at h2
        constructor <;> linarith [slotWidth_pos level, h2.1, h2.2]

theorem slot_calculatePositions (t : Tree) :
    ∀ (level position : Nat) (map : List (Int × NodePosition)) (k : Int)
      (p : NodePosition),
      (k, p) ∈ calculatePositions t level position map →
      (k, p) ∈ map ∨
        ∃ d s : Nat, p.level = level + d ∧
          position * 2 ^ d ≤ s ∧ s < (position + 1) * 2 ^ d ∧
          p.x = 520 / 2 ^ (level + d) * ((s : ℚ) + 1/2) ∧
          p.y = 20 + ((level + d : Nat) : ℚ) * 80 := by
  induction t with
  | nil =>
      intro level position map k p h
      exact Or.inl (by simpa [calculatePositions] using h)
  | node id l r ihl ihr =>
      intro level position map k p h
      rw [calcPos_node] at h
      rcases ihr _ _ _ _ _ h with h2 | h2
      · rcases ihl _ _ _ _ _ h2 with h3 | h3
        · rcases mem_mapSet h3 with h4 | h4
          · right
            obtain ⟨-, hp⟩ := Prod.ext_iff.mp h4
            subst hp
            exact ⟨0, position, by simp, by simp, by simp, by simp, by simp⟩
          · exact Or.inl h4
        · right
          obtain ⟨d, s, h1, hlo, hhi, hx, hy⟩ := h3
          refine ⟨d + 1, s, by omega, ?_, ?_, ?_, ?_⟩
          · calc position * 2 ^ (d + 1) = position * 2 * 2 ^ d := by ring
              _ ≤ s := hlo
          · calc s < (position * 2 + 1) * 2 ^ d := hhi
              _ ≤ (position + 1) * 2 ^ (d + 1) := by
                  have h5 : (position * 2 + 1) ≤ (position * 2 + 2) := by omega
                  calc (position * 2 + 1) * 2 ^ d
                      ≤ (position * 2 + 2) * 2 ^ d :=
                        Nat.mul_le_mul_right _ h5
                    _ = (position + 1) * 2 ^ (d + 1) := by ring
          · have h6 : level + 1 + d = level + (d + 1) := by omega
            rw [← h6]
            exact hx
          · have h6 : level + 1 + d = level + (d + 1) := by omega
            rw [← h6]
            exact hy
      · right
        obtain ⟨d, s, h1, hlo, hhi, hx, hy⟩ := h2
        refine ⟨d + 1, s, by omega, ?_, ?_, ?_, ?_⟩
        · calc position * 2 ^ (d + 1) = position * 2 * 2 ^ d := by ring
            _ ≤ (position * 2 + 1) * 2 ^ d := Nat.mul_le_mul_right _ (by omega)
            _ ≤ s := hlo
        · calc s < (position * 2 + 1 + 1) * 2 ^ d := hhi
            _ = (position + 1) * 2 ^ (d + 1) := by ring
        · have h6 : level + 1 + d = level + (d + 1) := by omega
          rw [← h6]
          exact hx
        · have h6 : level + 1 + d = level + (d + 1) := by omega
          rw [← h6]
          exact hy

theorem collisionFree_calculatePositions (t : Tree) :
    ∀ (level position : Nat) (map : List (Int × NodePosition)),
      CollisionFree map →
      (∀ k p, (k, p) ∈ map →
        ¬((position : ℚ) * slotWidth level < p.x ∧
            p.x < ((position : ℚ) + 1) * slotWidth level)) →
      CollisionFree (calculatePositions t level position map) := by
  induction t with
  | nil =>
      intro level position map hGood _
      simpa [calculatePositions] using hGood
  | node id l r ihl ihr =>
      intro level position map hGood hOut
      rw [calcPos_node]
      have hwp : 0 < slotWidth level := slotWidth_pos level
      have hx0 : (⟨520 / 2 ^ level * ((position : ℚ) + 1/2),
          20 + (level : ℚ) * 80, level⟩ : NodePosition).x =
          ((position : ℚ) + 1/2) * slotWidth level := by
        unfold slotWidth
        ring
      have hGood1 : CollisionFree (mapSet map id
          ⟨520 / 2 ^ level * ((position : ℚ) + 1/2),
           20 + (level : ℚ) * 80, level⟩) := by
        intro k1 p1 k2 p2 h1 h2 hne _
        rcases mem_mapSet h1 with e1 | e1 <;> rcases mem_mapSet h2 with e2 | e2
        · injection e1 with hk1 hp1
          injection e2 with hk2 hp2
          exact absurd (hk1.trans hk2.symm) hne
        · injection e1 with hk1 hp1
          intro heq
          apply hOut k2 p2 e2
          rw [← heq, hp1, hx0]
          constructor <;> nlinarith [hwp]
        · injection e2 with hk2 hp2
          intro heq
          apply hOut k1 p1 e1
          rw [heq, hp2, hx0]
          constructor <;> nlinarith [hwp]
        · exact hGood k1 p1 k2 p2 e1 e2 hne (by assumption)
      have hOut1 : ∀ k p, (k, p) ∈ mapSet map id
          ⟨520 / 2 ^ level * ((position : ℚ) + 1/2),
           20 + (level : ℚ) * 80, level⟩ →
          ¬(((position * 2 : Nat) : ℚ) * slotWidth (level + 1) < p.x ∧
              p.x < (((position * 2 : Nat) : ℚ) + 1) * slotWidth (level + 1)) := by
        intro k p hmem hin
        rw [slotWidth_succ] at hin
        push_cast at hin
        rcases mem_mapSet hmem with e | e
        · injection e with hk hp
          rw [hp, hx0] at hin
          linarith [hin.2]
        · apply hOut k p e
          constructor <;> linarith [hin.1, hin.2, hwp]
      have hGood2 : CollisionFree (calculatePositions l (level + 1)
          (position * 2) (mapSet map id
            ⟨520 / 2 ^ level * ((position : ℚ) + 1/2),
             20 + (level : ℚ) * 80, level⟩)) := ihl _ _ _ hGood1 hOut1
      have hOut2 : ∀ k p, (k, p) ∈ calculatePositions l (level + 1)
          (position * 2) (mapSet map id
            ⟨520 / 2 ^ level * ((position : ℚ) + 1/2),
             20 + (level : ℚ) * 80, level⟩) →
          ¬(((position * 2 + 1 : Nat) : ℚ) * slotWidth (level + 1) < p.x ∧
              p.x < (((position * 2 + 1 : Nat) : ℚ) + 1) * slotWidth (level + 1)) := by
        intro k p hmem hin
        rw [slotWidth_succ] at hin
        push_cast at hin
        rcases x_range_calculatePositions l _ _ _ _ _ hmem with e | e
        · rcases mem_mapSet e with e2 | e2
          · injection e2 with hk hp
            rw [hp, hx0] at hin
            linarith [hin.1]
          · apply hOut k p e2
            constructor <;> linarith [hin.1, hin.2, hwp]
        · rw [slotWidth_succ] at e
          push_cast at e
          linarith [e.2, hin.1]
      exact ihr _ _ _ hGood2 hOut2

theorem foldl_min_le (xs : List ℚ) (x0 : ℚ) :
    xs.foldl min x0 ≤ x0 ∧ ∀ y ∈ xs, xs.foldl min x0 ≤ y := by
  induction xs generalizing x0 with
  | nil => simp
  | cons a as ih =>
      simp only [List.foldl_cons, List.mem_cons]
      obtain ⟨h1, h2⟩ := ih (min x0 a)
      refine ⟨le_trans h1 (min_le_left _ _), ?_⟩
      rintro y (rfl | hy)
      · exact le_trans h1 (min_le_right _ _)
      · exact h2 y hy

theorem foldl_min_mem (xs : List ℚ) (x0 : ℚ) :
    xs.foldl min x0 ∈ x0 :: xs := by
  induction xs generalizing x0 with
  | nil => simp
  | cons a as ih =>
      simp only [List.foldl_cons]
      have h := ih (min x0 a)
      rcases List.mem_cons.mp h with h1 | h1
      · rcases min_choice x0 a with h2 | h2
        · exact List.mem_cons.mpr (Or.inl (h1.trans h2))
        · exact List.mem_cons.mpr (Or.inr
            (List.mem_cons.mpr (Or.inl (h1.trans h2))))
      · exact List.mem_cons.mpr (Or.inr (List.mem_cons.mpr (Or.inr h1)))

theorem le_foldl_max (xs : List ℚ) (x0 : ℚ) :
    x0 ≤ xs.foldl max x0 ∧ ∀ y ∈ xs, y ≤ xs.foldl max x0 := by
  induction xs generalizing x0 with
  | nil => simp
  | cons a as ih =>
      simp only [List.foldl_cons, List.mem_cons]
      obtain ⟨h1, h2⟩ := ih (max x0 a)
      refine ⟨le_trans (le_max_left _ _) h1, ?_⟩
      rintro y (rfl | hy)
      · exact le_trans (le_max_right _ _) h1
      · exact h2 y hy

theorem foldl_max_mem (xs : List ℚ) (x0 : ℚ) :
    xs.foldl max x0 ∈ x0 :: xs := by
  induction xs generalizing x0 with
  | nil => simp
  | cons a as ih =>
      simp only [List.foldl_cons]
      have h := ih (max x0 a)
      rcases List.mem_cons.mp h with h1 | h1
      · rcases max_choice x0 a with h2 | h2
        · exact List.mem_cons.mpr (Or.inl (h1.trans h2))
        · exact List.mem_cons.mpr (Or.inr
            (List.mem_cons.mpr (Or.inl (h1.trans h2))))
      · exact List.mem_cons.mpr (Or.inr (List.mem_cons.mpr (Or.inr h1)))

theorem mapGet_isSome_iff (m : List (Int × NodePosition)) (k : Int) :
    (mapGet m k).isSome = true ↔ k ∈ m.map Prod.fst := by
  unfold mapGet
  induction m with
  | nil => simp
  | cons e es ih =>
      by_cases he : (e.1 == k) = true
      · simp [List.find?_cons, he, eq_of_beq he]
      · simp only [List.find?_cons, he, List.map_cons, List.mem_cons]
        rw [ih]
        constructor
        · exact Or.inr
        · rintro (h1 | h1)
          · exact absurd (beq_iff_eq.mpr h1.symm) he
          · exact h1

theorem childLines_nil_child (positions : List (Int × NodePosition))
    (xOffset : ℚ) (nodePos : Option NodePosition) (rec : List Segment) :
    childLines positions xOffset nodePos .nil rec = [] := by
  cases nodePos <;> rfl

theorem childLines_some (positions : List (Int × NodePosition))
    (xOffset : ℚ) (np : NodePosition) (ck : Int) (cl cr : Tree)
    (rec : List Segment) (cp : NodePosition)
    (hg : mapGet positions ck = some cp) :
    childLines positions xOffset (some np) (.node ck cl cr) rec =
      ⟨np.x + xOffset, np.y + 20, cp.x + xOffset, cp.y - 20⟩ :: rec := by
  simp [childLines, hg]

theorem mem_childLines {positions : List (Int × NodePosition)} {xOffset : ℚ}
    {nodePos : Option NodePosition} {child : Tree} {rec : List Segment}
    {s : Segment} (h : s ∈ childLines positions xOffset nodePos child rec) :
    ∃ np cp : NodePosition, ∃ ck : Int,
      nodePos = some np ∧ mapGet positions ck = some cp ∧
      (s = ⟨np.x + xOffset, np.y + 20, cp.x + xOffset, cp.y - 20⟩ ∨
        s ∈ rec) := by
  rcases child with _ | ⟨ck, cl, cr⟩
  · simp [childLines] at h
  · rcases nodePos with _ | np
    · simp [childLines] at h
    · rcases hg : mapGet positions ck with _ | cp
      · simp [childLines, hg] at h
      · rw [childLines_some _ _ _ _ _ _ _ _ hg] at h
        exact ⟨np, cp, ck, rfl, hg, List.mem_cons.mp h⟩

theorem renderLines_eq_map_edges (t : Tree)
    (positions : List (Int × NodePosition)) (xOffset : ℚ)
    (hcov : ∀ k, k ∈ inorder t → (mapGet positions k).isSome = true) :
    renderLines t positions xOffset =
      (edges t).map (segmentFor positions xOffset) := by
  induction t with
  | nil => simp [renderLines, edges]
  | node k l r ihl ihr =>
      obtain ⟨np, hnp⟩ := Option.isSome_iff_exists.mp
        (hcov k (by simp [inorder]))
      have hcovl : ∀ k0, k0 ∈ inorder l → (mapGet positions k0).isSome = true :=
        fun k0 hk0 => hcov k0 (by simp [inorder, hk0])
      have hcovr : ∀ k0, k0 ∈ inorder r → (mapGet positions k0).isSome = true :=
        fun k0 hk0 => hcov k0 (by simp [inorder, hk0])
      rw [renderLines, hnp]
      cases l with
      | nil =>
          cases r with
          | nil => simp [childLines_nil_child, edges]
          | node rk rl rr =>
              obtain ⟨rp, hrp⟩ := Option.isSome_iff_exists.mp
                (hcovr rk (by simp [inorder]))
              rw [childLines_nil_child, childLines_some _ _ _ _ _ _ _ _ hrp,
                ihr hcovr]
              simp [edges, segmentFor, hnp, hrp]
      | node lk ll lr =>
          obtain ⟨lp, hlp⟩ := Option.isSome_iff_exists.mp
            (hcovl lk (by simp [inorder]))
          cases r with
          | nil =>
              rw [childLines_nil_child, childLines_some _ _ _ _ _ _ _ _ hlp,
                ihl hcovl]
              simp [edges, segmentFor, hnp, hlp]
          | node rk rl rr =>
              obtain ⟨rp, hrp⟩ := Option.isSome_iff_exists.mp
                (hcovr rk (by simp [inorder]))
              rw [childLines_some _ _ _ _ _ _ _ _ hlp,
                childLines_some _ _ _ _ _ _ _ _ hrp, ihl hcovl, ihr hcovr]
              simp [edges, segmentFor, hnp, hlp, hrp]

theorem renderLines_endpoints (t : Tree)
    (positions : List (Int × NodePosition)) (xOffset : ℚ) :
    ∀ s ∈ renderLines t positions xOffset,
      ∃ pp cp : NodePosition, ∃ pk ck : Int,
        mapGet positions pk = some pp ∧ mapGet positions ck = some cp ∧
        s = ⟨pp.x + xOffset, pp.y + 20, cp.x + xOffset, cp.y - 20⟩ := by
  induction t with
  | nil => simp [renderLines]
  | node k l r ihl ihr =>
      intro s hs
      rw [renderLines] at hs
      rcases List.mem_append.mp hs with h1 | h1
      · obtain ⟨np, cp, ck, hnp, hcp, hor⟩ := mem_childLines h1
        rcases hor with rfl | hrec
        · exact ⟨np, cp, k, ck, hnp, hcp, rfl⟩
        · exact ihl s hrec
      · obtain ⟨np, cp, ck, hnp, hcp, hor⟩ := mem_childLines h1
        rcases hor with rfl | hrec
        · exact ⟨np, cp, k, ck, hnp, hcp, rfl⟩
        · exact ihr s hrec

theorem subtreeAt_insertIntoBST (t : Tree) (v : Int) :
    ∀ p : List Bool,
      begins p (insPath t v) = false → begins (insPath t v) p = false →
      subtreeAt (insertIntoBST t v) p = subtreeAt t p := by
  induction t with
  | nil =>
      intro p _ h2
      simp [insPath, begins] at h2
  | node k l r ihl ihr =>
      intro p h1 h2
      cases p with
      | nil => simp [begins] at h1
      | cons d p' =>
          by_cases hv : v < k
          · simp only [insPath, if_pos hv] at h1 h2
            cases d with
            | false =>
                simp only [begins, Bool.and_eq_false_iff] at h1 h2
                have h1' : begins p' (insPath l v) = false := by
                  rcases h1 with h | h
                  · simp at h
                  · exact h
                have h2' : begins (insPath l v) p' = false := by
                  rcases h2 with h | h
                  · simp at h
                  · exact h
                simp only [insertIntoBST, if_pos hv, subtreeAt, if_neg
                  Bool.false_ne_true]
                exact ihl p' h1' h2'
            | true =>
                simp [insertIntoBST, if_pos hv, subtreeAt]
          · simp only [insPath, if_neg hv] at h1 h2
            cases d with
            | true =>
                simp only [begins, Bool.and_eq_false_iff] at h1 h2
                have h1' : begins p' (insPath r v) = false := by
                  rcases h1 with h | h
                  · simp at h
                  · exact h
                have h2' : begins (insPath r v) p' = false := by
                  rcases h2 with h | h
                  · simp at h
                  · exact h
                simp only [insertIntoBST, if_neg hv, subtreeAt, if_pos rfl]
                exact ihr p' h1' h2'
            | false =>
                simp [insertIntoBST, if_neg hv, subtreeAt]

theorem childLines_child_none (positions : List (Int × NodePosition))
    (xOffset : ℚ) (nodePos : Option NodePosition) (ck : Int) (cl cr : Tree)
    (rec : List Segment) (hg : mapGet positions ck = none) :
    childLines positions xOffset nodePos (.node ck cl cr) rec = [] := by
  rcases nodePos with _ | np
  · rfl
  · simp [childLines, hg]

theorem size_insertIntoBST (t : Tree) (v : Int) :
    size (insertIntoBST t v) = size t + 1 := by
  induction t with
  | nil => simp [insertIntoBST, size]
  | node k l r ihl ihr =>
      by_cases hv : v < k
      · simp only [insertIntoBST, if_pos hv, size, ihl]
        omega
      · simp only [insertIntoBST, if_neg hv, size, ihr]
        omega

theorem tree12_eq : ([10, 20] : List Int).foldl insertIntoBST Tree.nil =
    Tree.node 10 Tree.nil (Tree.node 20 Tree.nil Tree.nil) := by
  decide

theorem layout12 :
    computeLayout (([10, 20] : List Int).foldl insertIntoBST Tree.nil) =
      [(10, ⟨260, 20, 0⟩), (20, ⟨390, 100, 1⟩)] := by
  norm_num [List.foldl, insertIntoBST, computeLayout, calculatePositions,
    mapSet, List.any]
  simp

theorem layout123 :
    computeLayout (([10, 20, 30] : List Int).foldl insertIntoBST Tree.nil) =
      [(10, ⟨260, 20, 0⟩), (20, ⟨390, 100, 1⟩), (30, ⟨455, 180, 2⟩)] := by
  norm_num [List.foldl, insertIntoBST, computeLayout, calculatePositions,
    mapSet, List.any]
  simp

theorem layout213 :
    computeLayout (([20, 10, 30] : List Int).foldl insertIntoBST Tree.nil) =
      [(20, ⟨260, 20, 0⟩), (10, ⟨130, 100, 1⟩), (30, ⟨390, 100, 1⟩)] := by
  norm_num [List.foldl, insertIntoBST, computeLayout, calculatePositions,
    mapSet, List.any]
  simp

theorem renderLines12 :
    renderLines (([10, 20] : List Int).foldl insertIntoBST Tree.nil)
      (computeLayout (([10, 20] : List Int).foldl insertIntoBST Tree.nil)) 0 =
      [⟨260, 40, 390, 80⟩] := by
  rw [layout12, tree12_eq]
  norm_num [renderLines, childLines, mapGet, List.find?, Option.map]
  simp
  norm_num

/-- C1: inserting any sequence of distinct integers into an initially empty
tree via `insertIntoBST` yields a tree satisfying the BST invariant (left
keys strictly below, right keys greater or equal, at every node), and its
in-order traversal is a sorted sequence. -/
theorem claim_C1 (vs : List Int) (h : vs.Nodup) :
    isBST (vs.foldl insertIntoBST Tree.nil) = true ∧
      List.Sorted (· ≤ ·) (inorder (vs.foldl insertIntoBST Tree.nil)) :=
  ⟨isBST_foldl vs Tree.nil rfl,
   sorted_inorder_of_isBST (isBST_foldl vs Tree.nil rfl)⟩

theorem claim_C1_witness :
    ([3, 1, 2] : List Int).Nodup ∧
      (isBST (([3, 1, 2] : List Int).foldl insertIntoBST Tree.nil) = true ∧
        List.Sorted (· ≤ ·)
          (inorder (([3, 1, 2] : List Int).foldl insertIntoBST Tree.nil))) :=
  ⟨by decide, claim_C1 [3, 1, 2] (by decide)⟩

/-- C2: `insertIntoBST` on an empty root returns a new leaf holding the
value; when `value < root.id` it returns a node with the same key, the same
right subtree and left subtree `insert(root.left, value)`; otherwise (ties
routed right) the same key, the same left subtree and right subtree
`insert(root.right, value)`. -/
theorem claim_C2 (v k : Int) (l r : Tree) :
    insertIntoBST Tree.nil v = Tree.node v Tree.nil Tree.nil ∧
      (v < k →
        insertIntoBST (Tree.node k l r) v =
          Tree.node k (insertIntoBST l v) r) ∧
      (k ≤ v →
        insertIntoBST (Tree.node k l r) v =
          Tree.node k l (insertIntoBST r v)) := by
  refine ⟨rfl, fun h => ?_, fun h => ?_⟩
  · simp [insertIntoBST, if_pos h]
  · simp [insertIntoBST, if_neg (not_lt.mpr h)]

theorem claim_C2_witness :
    ((3 : Int) < 5 ∧
      insertIntoBST (Tree.node 5 Tree.nil Tree.nil) 3 =
        Tree.node 5 (insertIntoBST Tree.nil 3) Tree.nil) ∧
    ((5 : Int) ≤ 7 ∧
      insertIntoBST (Tree.node 5 Tree.nil Tree.nil) 7 =
        Tree.node 5 Tree.nil (insertIntoBST Tree.nil 7)) :=
  ⟨⟨by decide, (claim_C2 3 5 Tree.nil Tree.nil).2.1 (by decide)⟩,
   ⟨by decide, (claim_C2 7 5 Tree.nil Tree.nil).2.2 (by decide)⟩⟩

/-- C3: the layout visits the root at recursion state `(0, 0)`, stores for a
node reached at `(level, slotIndex)` the coordinates
`x = (520 / 2^level) * (slotIndex + 0.5)` and `y = 20 + level * 80`, and
recurses into the left child at `(level + 1, slotIndex * 2)` and the right
child at `(level + 1, slotIndex * 2 + 1)`; consequently every stored record
has that form for some slot below `2^level`, and inserting `[10, 20, 30]`
places key `30` at level `2`, slot `3`, with `x = 455` and `y = 180`. -/
theorem claim_C3 :
    (∀ (k : Int) (l r : Tree) (level position : Nat)
        (map : List (Int × NodePosition)),
      calculatePositions (Tree.node k l r) level position map =
        calculatePositions r (level + 1) (position * 2 + 1)
          (calculatePositions l (level + 1) (position * 2)
            (mapSet map k
              ⟨520 / 2 ^ level * ((position : ℚ) + 1/2),
               20 + (level : ℚ) * 80, level⟩))) ∧
    (∀ (t : Tree) (k : Int) (p : NodePosition), (k, p) ∈ computeLayout t →
      ∃ s : Nat, s < 2 ^ p.level ∧
        p.x = 520 / 2 ^ p.level * ((s : ℚ) + 1/2) ∧
        p.y = 20 + (p.level : ℚ) * 80) ∧
    mapGet (computeLayout (([10, 20, 30] : List Int).foldl insertIntoBST
        Tree.nil)) 30 = some ⟨455, 180, 2⟩ := by
  refine ⟨fun k l r level position map =>
    calcPos_node k l r level position map, ?_, ?_⟩
  · intro t k p h
    rcases slot_calculatePositions t 0 0 [] k p h with h1 | h1
    · simp at h1
    · obtain ⟨d, s, hlev, hlo, hhi, hx, hy⟩ := h1
      refine ⟨s, ?_, ?_, ?_⟩
      · rw [hlev]
        simpa using hhi
      · rw [hlev]
        simpa using hx
      · rw [hlev]
        simpa using hy
  · rw [layout123]
    decide

theorem claim_C3_witness :
    ((10 : Int), (⟨260, 20, 0⟩ : NodePosition)) ∈
        computeLayout (([10, 20] : List Int).foldl insertIntoBST Tree.nil) ∧
      ∃ s : Nat, s < 2 ^ (0 : Nat) ∧
        (260 : ℚ) = 520 / 2 ^ (0 : Nat) * ((s : ℚ) + 1/2) ∧
        (20 : ℚ) = 20 + ((0 : Nat) : ℚ) * 80 := by
  have hmem : ((10 : Int), (⟨260, 20, 0⟩ : NodePosition)) ∈
      computeLayout (([10, 20] : List Int).foldl insertIntoBST Tree.nil) := by
    rw [layout12]
    decide
  exact ⟨hmem, claim_C3.2.1 _ 10 ⟨260, 20, 0⟩ hmem⟩

/-- C4: for a tree with distinct keys the layout mapping covers exactly the
keys present in the tree (a key has a position record iff it is in the
tree), and the empty tree yields the empty mapping. -/
theorem claim_C4 (t : Tree) (h : (inorder t).Nodup) :
    (∀ k : Int, (mapGet (computeLayout t) k).isSome = true ↔ k ∈ inorder t) ∧
      computeLayout Tree.nil = [] := by
  refine ⟨fun k => ?_, rfl⟩
  rw [mapGet_isSome_iff]
  simpa [computeLayout] using keys_calculatePositions t 0 0 [] k

theorem claim_C4_witness :
    (inorder (([10, 20] : List Int).foldl insertIntoBST Tree.nil)).Nodup ∧
      ((mapGet (computeLayout (([10, 20] : List Int).foldl insertIntoBST
          Tree.nil)) 20).isSome = true ↔
        20 ∈ inorder (([10, 20] : List Int).foldl insertIntoBST Tree.nil)) :=
  ⟨by decide, (claim_C4 _ (by decide)).1 20⟩

/-- C5: in the layout of a tree with distinct keys, two entries with
different keys but the same level never share an `x` coordinate, whatever
the tree's shape. -/
theorem claim_C5 (t : Tree) (h : (inorder t).Nodup) :
    ∀ (k1 : Int) (p1 : NodePosition) (k2 : Int) (p2 : NodePosition),
      (k1, p1) ∈ computeLayout t → (k2, p2) ∈ computeLayout t →
      k1 ≠ k2 → p1.level = p2.level → p1.x ≠ p2.x := by
  have hmain : CollisionFree (computeLayout t) := by
    apply collisionFree_calculatePositions
    · intro k1 p1 k2 p2 h1
      simp at h1
    · intro k p hp
      simp at hp
  exact hmain

theorem claim_C5_witness :
    (inorder (([20, 10, 30] : List Int).foldl insertIntoBST Tree.nil)).Nodup ∧
    ((10 : Int), (⟨130, 100, 1⟩ : NodePosition)) ∈
      computeLayout (([20, 10, 30] : List Int).foldl insertIntoBST Tree.nil) ∧
    ((30 : Int), (⟨390, 100, 1⟩ : NodePosition)) ∈
      computeLayout (([20, 10, 30] : List Int).foldl insertIntoBST Tree.nil) ∧
    (130 : ℚ) ≠ 390 := by
  have h1 : ((10 : Int), (⟨130, 100, 1⟩ : NodePosition)) ∈
      computeLayout (([20, 10, 30] : List Int).foldl insertIntoBST Tree.nil) := by
    rw [layout213]
    decide
  have h2 : ((30 : Int), (⟨390, 100, 1⟩ : NodePosition)) ∈
      computeLayout (([20, 10, 30] : List Int).foldl insertIntoBST Tree.nil) := by
    rw [layout213]
    decide
  exact ⟨by decide, h1, h2,
    claim_C5 _ (by decide) 10 ⟨130, 100, 1⟩ 30 ⟨390, 100, 1⟩ h1 h2
      (by decide) rfl⟩

/-- C6: `getHorizontalOffset` returns `0` on an empty mapping, and on a
non-empty mapping returns `canvasWidth/2 - (minX + (maxX - minX)/2)` where
`minX` and `maxX` are the minimum and maximum of the stored `x` values. -/
theorem claim_C6 (positions : List (Int × NodePosition)) (canvasWidth : ℚ)
    (h : positions ≠ []) :
    getHorizontalOffset [] canvasWidth = 0 ∧
      ∃ mn mx : ℚ,
        mn ∈ positions.map (fun e => e.2.x) ∧
        mx ∈ positions.map (fun e => e.2.x) ∧
        (∀ x ∈ positions.map (fun e => e.2.x), mn ≤ x ∧ x ≤ mx) ∧
        getHorizontalOffset positions canvasWidth =
          canvasWidth / 2 - (mn + (mx - mn) / 2) := by
  refine ⟨rfl, ?_⟩
  rcases hxs : positions.map (fun e => e.2.x) with _ | ⟨x0, xs⟩
  · exact absurd (List.map_eq_nil_iff.mp hxs) h
  · refine ⟨xs.foldl min x0, xs.foldl max x0, ?_, ?_, ?_, ?_⟩
    · rw [hxs]
      exact foldl_min_mem xs x0
    · rw [hxs]
      exact foldl_max_mem xs x0
    · intro x hx
      rw [hxs] at hx
      rcases List.mem_cons.mp hx with rfl | hx
      · exact ⟨(foldl_min_le xs x).1, (le_foldl_max xs x).1⟩
      · exact ⟨(foldl_min_le xs x0).2 x hx, (le_foldl_max xs x0).2 x hx⟩
    · unfold getHorizontalOffset
      rw [hxs]

theorem claim_C6_witness :
    ([((10 : Int), (⟨260, 20, 0⟩ : NodePosition)), (20, ⟨390, 100, 1⟩)] ≠
        ([] : List (Int × NodePosition))) ∧
      (getHorizontalOffset [] 520 = 0 ∧
        ∃ mn mx : ℚ,
          mn ∈ [((10 : Int), (⟨260, 20, 0⟩ : NodePosition)),
              (20, ⟨390, 100, 1⟩)].map (fun e => e.2.x) ∧
          mx ∈ [((10 : Int), (⟨260, 20, 0⟩ : NodePosition)),
              (20, ⟨390, 100, 1⟩)].map (fun e => e.2.x) ∧
          (∀ x ∈ [((10 : Int), (⟨260, 20, 0⟩ : NodePosition)),
              (20, ⟨390, 100, 1⟩)].map (fun e => e.2.x), mn ≤ x ∧ x ≤ mx) ∧
          getHorizontalOffset [((10 : Int), (⟨260, 20, 0⟩ : NodePosition)),
              (20, ⟨390, 100, 1⟩)] 520 = 520 / 2 - (mn + (mx - mn) / 2)) :=
  ⟨by decide, claim_C6 _ 520 (by decide)⟩

/-- C7: with a layout covering all keys of the tree, edge extraction emits
exactly one segment per parent-child edge, from `(parentX + offsetX,
parentY + 20)` to `(childX + offsetX, childY - 20)`; for the tree built
from `[10, 20]` with offset `0` the single segment runs from `(260, 40)`
to `(390, 80)`. -/
theorem claim_C7 (t : Tree) (positions : List (Int × NodePosition))
    (xOffset : ℚ)
    (hcov : ∀ k, k ∈ inorder t → (mapGet positions k).isSome = true) :
    renderLines t positions xOffset =
        (edges t).map (segmentFor positions xOffset) ∧
      renderLines (([10, 20] : List Int).foldl insertIntoBST Tree.nil)
          (computeLayout (([10, 20] : List Int).foldl insertIntoBST Tree.nil))
          0 = [⟨260, 40, 390, 80⟩] :=
  ⟨renderLines_eq_map_edges t positions xOffset hcov, renderLines12⟩

theorem claim_C7_witness :
    (∀ k : Int,
        k ∈ inorder (([10, 20] : List Int).foldl insertIntoBST Tree.nil) →
        (mapGet [((10 : Int), (⟨260, 20, 0⟩ : NodePosition)),
            (20, ⟨390, 100, 1⟩)] k).isSome = true) ∧
      renderLines (([10, 20] : List Int).foldl insertIntoBST Tree.nil)
          [((10 : Int), (⟨260, 20, 0⟩ : NodePosition)),
            (20, ⟨390, 100, 1⟩)] 0 =
        (edges (([10, 20] : List Int).foldl insertIntoBST Tree.nil)).map
          (segmentFor [((10 : Int), (⟨260, 20, 0⟩ : NodePosition)),
            (20, ⟨390, 100, 1⟩)] 0) :=
  ⟨by decide, (claim_C7 _ _ 0 (by decide)).1⟩

/-- C8: insertion rebuilds only the root-to-insertion-point path: every
subtree at a path that neither is a prefix of the insertion path nor
extends it is the same subtree before and after; in particular for
`v < key` the result keeps the very same right subtree, and otherwise the
very same left subtree.  (In the embedding trees are immutable values, so
the caller's original tree is unchanged by construction; the refutable
content of the claim is this structural sharing.) -/
theorem claim_C8 (t : Tree) (v : Int) :
    (∀ p : List Bool,
      begins p (insPath t v) = false → begins (insPath t v) p = false →
      subtreeAt (insertIntoBST t v) p = subtreeAt t p) ∧
    (∀ (k : Int) (l r : Tree), v < k →
      subtreeAt (insertIntoBST (Tree.node k l r) v) [true] = some r) ∧
    (∀ (k : Int) (l r : Tree), k ≤ v →
      subtreeAt (insertIntoBST (Tree.node k l r) v) [false] = some l) := by
  refine ⟨subtreeAt_insertIntoBST t v, fun k l r h => ?_, fun k l r h => ?_⟩
  · simp [insertIntoBST, if_pos h, subtreeAt]
  · simp [insertIntoBST, if_neg (not_lt.mpr h), subtreeAt]

theorem claim_C8_witness :
    begins [true] (insPath (Tree.node 5 Tree.nil Tree.nil) 3) = false ∧
    begins (insPath (Tree.node 5 Tree.nil Tree.nil) 3) [true] = false ∧
    subtreeAt (insertIntoBST (Tree.node 5 Tree.nil Tree.nil) 3) [true] =
      subtreeAt (Tree.node 5 Tree.nil Tree.nil) [true] :=
  ⟨by decide, by decide,
    (claim_C8 (Tree.node 5 Tree.nil Tree.nil) 3).1 [true] (by decide)
      (by decide)⟩

/-- C9: insertion signals no error even for a value already present: it is
total, adds exactly one node, the keys are the old keys plus `v`, and at a
node whose key equals `v` the insertion goes into the right subtree. -/
theorem claim_C9 (t : Tree) (v : Int) (h : v ∈ inorder t) :
    size (insertIntoBST t v) = size t + 1 ∧
      List.Perm (inorder (insertIntoBST t v)) (v :: inorder t) ∧
      (∀ l r : Tree,
        insertIntoBST (Tree.node v l r) v =
          Tree.node v l (insertIntoBST r v)) := by
  refine ⟨size_insertIntoBST t v, inorder_insert_perm t v, fun l r => ?_⟩
  simp [insertIntoBST]

theorem claim_C9_witness :
    (5 : Int) ∈ inorder (Tree.node 5 Tree.nil Tree.nil) ∧
      (size (insertIntoBST (Tree.node 5 Tree.nil Tree.nil) 5) =
          size (Tree.node 5 Tree.nil Tree.nil) + 1 ∧
        List.Perm (inorder (insertIntoBST (Tree.node 5 Tree.nil Tree.nil) 5))
          (5 :: inorder (Tree.node 5 Tree.nil Tree.nil)) ∧
        (∀ l r : Tree,
          insertIntoBST (Tree.node 5 l r) 5 =
            Tree.node 5 l (insertIntoBST r 5))) :=
  ⟨by decide, claim_C9 (Tree.node 5 Tree.nil Tree.nil) 5 (by decide)⟩

/-- C10: when the layout mapping lacks a node's child, edge extraction does
not fail or signal: it emits no segment for that edge and skips the whole
subtree rooted at the missing child (its output equals the output for the
tree with that child absent), and every segment it returns joins two keys
whose positions are both present in the mapping. -/
theorem claim_C10 (positions : List (Int × NodePosition)) (xOffset : ℚ) :
    (∀ (k lk : Int) (ll lr r : Tree),
      mapGet positions lk = none →
      renderLines (Tree.node k (Tree.node lk ll lr) r) positions xOffset =
        renderLines (Tree.node k Tree.nil r) positions xOffset) ∧
    (∀ (k rk : Int) (rl rr l : Tree),
      mapGet positions rk = none →
      renderLines (Tree.node k l (Tree.node rk rl rr)) positions xOffset =
        renderLines (Tree.node k l Tree.nil) positions xOffset) ∧
    (∀ (t : Tree) (s : Segment), s ∈ renderLines t positions xOffset →
      ∃ pp cp : NodePosition, ∃ pk ck : Int,
        mapGet positions pk = some pp ∧ mapGet positions ck = some cp ∧
        s = ⟨pp.x + xOffset, pp.y + 20, cp.x + xOffset, cp.y - 20⟩) := by
  refine ⟨fun k lk ll lr r hg => ?_, fun k rk rl rr l hg => ?_,
    fun t s hs => renderLines_endpoints t positions xOffset s hs⟩
  · rw [renderLines, childLines_child_none _ _ _ _ _ _ _ hg]
    conv_rhs => rw [renderLines, childLines_nil_child]
  · rw [renderLines, childLines_child_none _ _ _ _ _ _ _ hg]
    conv_rhs => rw [renderLines, childLines_nil_child]

theorem claim_C10_witness :
    mapGet [((10 : Int), (⟨260, 20, 0⟩ : NodePosition))] 20 = none ∧
      renderLines (Tree.node 10 (Tree.node 20 Tree.nil Tree.nil) Tree.nil)
          [((10 : Int), (⟨260, 20, 0⟩ : NodePosition))] 0 =
        renderLines (Tree.node 10 Tree.nil Tree.nil)
          [((10 : Int), (⟨260, 20, 0⟩ : NodePosition))] 0 :=
  ⟨by decide, (claim_C10 _ 0).1 10 20 Tree.nil Tree.nil Tree.nil (by decide)⟩

end BSTVisualizer
